import Mathlib

set_option maxRecDepth 8192

/-!
Verification of the syncer repository's core algorithms.

File contents are modelled as lists of bytes (`List Nat`), file paths and
checksums as strings.  The per-chunk strong hash (SHA-256 in the source) is an
external library call, so every definition that uses it takes the hash as an
explicit function parameter; all theorems hold for an arbitrary hash function.
-/

namespace Syncer

/-! ### shared/diff.py -/

/-- A chunk of a file with its metadata (class FileChunk). -/
structure FileChunk where
  offset : Nat
  size : Nat
  checksum : String
  data : Option (List Nat) := none
deriving DecidableEq

/-- The difference between two file versions (class FileDelta). -/
structure FileDelta where
  unchanged_chunks : List FileChunk
  changed_chunks : List FileChunk
  total_size : Nat
  compression_ratio : ℚ := 1
deriving DecidableEq

/-- The chunk-reading loop of `DifferentialSync.create_signature`: starting at
`offset`, repeatedly read up to `chunkSize` bytes of `content`, recording each
chunk's offset, size and checksum.  `f.read(0)` returns no bytes, so a zero
chunk size produces no chunks, exactly as in the source. -/
def chunksFrom (hash : List Nat → String) (chunkSize : Nat) (offset : Nat)
    (content : List Nat) : List FileChunk :=
  if h : chunkSize = 0 ∨ content = [] then []
  else
    let chunkData := content.take chunkSize
    { offset := offset, size := chunkData.length, checksum := hash chunkData } ::
      chunksFrom hash chunkSize (offset + chunkData.length) (content.drop chunkSize)
termination_by content.length
decreasing_by
  simp only [List.length_drop]
  push_neg at h
  have h2 : content ≠ [] := h.2
  have hpos : 0 < content.length := List.length_pos.mpr h2
  have h1 : chunkSize ≠ 0 := h.1
  omega

/-- `DifferentialSync.create_signature` on a readable file with the given
contents. -/
def create_signature (hash : List Nat → String) (chunkSize : Nat)
    (content : List Nat) : List FileChunk :=
  chunksFrom hash chunkSize 0 content

/-- `DifferentialSync.create_delta`: chunk the source, classify each chunk as
unchanged (its checksum appears in the target signature) or changed (data
loaded from the source at the chunk's offset/size). -/
def create_delta (hash : List Nat → String) (chunkSize : Nat) (source : List Nat)
    (targetSignature : List FileChunk) : FileDelta :=
  let sourceChunks := create_signature hash chunkSize source
  let targetChecksums := targetSignature.map (fun c => c.checksum)
  let unchanged := sourceChunks.filter (fun c => targetChecksums.contains c.checksum)
  let changed := (sourceChunks.filter (fun c => !(targetChecksums.contains c.checksum))).map
      (fun c => { c with data := some ((source.drop c.offset).take c.size) })
  let totalSize : Nat := (sourceChunks.map (fun c => c.size)).sum
  let changedSize : Nat := (changed.map (fun c => c.size)).sum
  { unchanged_chunks := unchanged
    changed_chunks := changed
    total_size := totalSize
    compression_ratio := if 0 < totalSize then (changedSize : ℚ) / (totalSize : ℚ) else 1 }

/-- The loop body of `apply_delta`: a chunk carrying data contributes that
data; a chunk without data is re-read from the source file at its
offset/size. -/
def renderChunk (source : List Nat) (c : FileChunk) : List Nat :=
  match c.data with
  | some d => d
  | none => (source.drop c.offset).take c.size

/-- `DifferentialSync.apply_delta` on its success path: concatenate all chunks
in offset order (a stable sort, as `list.sort`), taking carried data for
changed chunks and re-reading `source` at offset/size for unchanged ones.
The returned list is the reconstructed content written to the target file. -/
def apply_delta (delta : FileDelta) (source : List Nat) : List Nat :=
  let allChunks := (delta.unchanged_chunks ++ delta.changed_chunks).mergeSort
      (fun a b => a.offset ≤ b.offset)
  (allChunks.map (renderChunk source)).flatten

/-- Result record of `DifferentialSync.calculate_transfer_savings`. -/
structure TransferSavings where
  total_size : Nat
  changed_size : Nat
  unchanged_size : Nat
  transfer_ratio : ℚ
  savings_percent : ℚ
deriving DecidableEq

/-- `DifferentialSync.calculate_transfer_savings`. -/
def calculate_transfer_savings (delta : FileDelta) : TransferSavings :=
  if delta.total_size = 0 then
    { total_size := 0, changed_size := 0, unchanged_size := 0,
      transfer_ratio := 1, savings_percent := 0 }
  else
    let changedSize : Nat := (delta.changed_chunks.map (fun c => c.size)).sum
    let unchangedSize : Nat := (delta.unchanged_chunks.map (fun c => c.size)).sum
    let transferRatio : ℚ := (changedSize : ℚ) / (delta.total_size : ℚ)
    { total_size := delta.total_size, changed_size := changedSize,
      unchanged_size := unchangedSize, transfer_ratio := transferRatio,
      savings_percent := (1 - transferRatio) * 100 }

/-- A concrete stand-in hash used to instantiate witnesses. -/
def hashSum (l : List Nat) : String :=
  toString (l.foldl (fun a b => a * 257 + b) 1)

/-! ### shared/compression.py -/

/-- Enum CompressionType. -/
inductive CompressionType where
  | none
  | gzip
  | zlib
  | lz4
deriving DecidableEq

/-- The external codec libraries used by compression.py (gzip, zlib,
lz4.frame): a compressor/decompressor pair per algorithm, plus a flag telling
whether the lz4 library is importable at run time (the `except ImportError`
branches). All theorems are parametric in this structure; witnesses
instantiate it with concrete functions. -/
structure Codecs where
  gzipC : List Nat → List Nat
  gzipD : List Nat → List Nat
  zlibC : List Nat → List Nat
  zlibD : List Nat → List Nat
  lz4C : List Nat → List Nat
  lz4D : List Nat → List Nat
  lz4Avail : Bool

/-- The external contract of the codec libraries: each decompressor inverts
its compressor. -/
def Codecs.RoundTrip (K : Codecs) : Prop :=
  (∀ d, K.gzipD (K.gzipC d) = d) ∧ (∀ d, K.zlibD (K.zlibC d) = d) ∧
    (∀ d, K.lz4D (K.lz4C d) = d)

/-- `CompressionUtil.compress_data`: compress with the requested algorithm,
returning the bytes together with the algorithm actually used; lz4 falls back
to zlib (tagged zlib) when the lz4 library is unavailable. -/
def compress_data (K : Codecs) (data : List Nat) (compressionType : CompressionType) :
    List Nat × CompressionType :=
  match compressionType with
  | .none => (data, .none)
  | .gzip => (K.gzipC data, .gzip)
  | .zlib => (K.zlibC data, .zlib)
  | .lz4 => if K.lz4Avail then (K.lz4C data, .lz4) else (K.zlibC data, .zlib)

/-- `CompressionUtil.decompress_data`. -/
def decompress_data (K : Codecs) (compressedData : List Nat)
    (compressionType : CompressionType) : List Nat :=
  match compressionType with
  | .none => compressedData
  | .gzip => K.gzipD compressedData
  | .zlib => K.zlibD compressedData
  | .lz4 => if K.lz4Avail then K.lz4D compressedData else K.zlibD compressedData

/-- The `compressed_extensions` set of `should_compress`. -/
def compressedExtensions : List (List Char) :=
  [".zip".toList, ".gz".toList, ".bz2".toList, ".xz".toList, ".7z".toList,
   ".rar".toList, ".tar".toList, ".tgz".toList,
   ".jpg".toList, ".jpeg".toList, ".png".toList, ".gif".toList, ".webp".toList,
   ".avif".toList, ".heic".toList,
   ".mp4".toList, ".avi".toList, ".mkv".toList, ".mov".toList, ".webm".toList,
   ".flv".toList, ".wmv".toList,
   ".mp3".toList, ".aac".toList, ".ogg".toList, ".flac".toList, ".m4a".toList,
   ".wma".toList,
   ".pdf".toList, ".docx".toList, ".xlsx".toList, ".pptx".toList, ".odt".toList,
   ".ods".toList,
   ".exe".toList, ".dll".toList, ".so".toList, ".dylib".toList,
   ".lz4".toList, ".zst".toList, ".br".toList]

/-- The `text_extensions` set of `should_compress`. -/
def textExtensions : List (List Char) :=
  [".txt".toList, ".log".toList, ".json".toList, ".xml".toList, ".html".toList,
   ".css".toList, ".js".toList, ".py".toList, ".java".toList, ".cpp".toList,
   ".c".toList, ".h".toList, ".sql".toList, ".md".toList, ".rst".toList,
   ".csv".toList, ".tsv".toList, ".yaml".toList, ".yml".toList, ".ini".toList,
   ".conf".toList, ".cfg".toList]

/-- `CompressionUtil.should_compress`.  File names are lists of characters;
`if file_type:` in Python is false both for `None` and for the empty string,
hence the emptiness test. -/
def should_compress (dataSize : Nat) (fileType : Option (List Char) := Option.none) : Bool :=
  match fileType with
  | some ft =>
    if ft.isEmpty then
      if dataSize < 512 then false else decide (512 ≤ dataSize)
    else
      let fileLower := ft.map Char.toLower
      if compressedExtensions.any (fun ext => ext.isSuffixOf fileLower) then false
      else if textExtensions.any (fun ext => ext.isSuffixOf fileLower) then
        decide (256 ≤ dataSize)
      else decide (1024 ≤ dataSize)
  | Option.none =>
    if dataSize < 512 then false else decide (512 ≤ dataSize)

/-- `CompressionUtil.get_compression_ratio`. -/
def get_compression_ratio (originalSize compressedSize : Nat) : ℚ :=
  if originalSize = 0 then 0 else (compressedSize : ℚ) / (originalSize : ℚ)

/-- The trial list built by `choose_best_compression`: compressed bytes,
the attempted algorithm tag, and its ratio, in the source's order
lz4, zlib, gzip.  (The source records the attempted `comp_type`, not the tag
returned by `compress_data`.) -/
def compressionTrials (K : Codecs) (data : List Nat) :
    List (List Nat × CompressionType × ℚ) :=
  [CompressionType.lz4, CompressionType.zlib, CompressionType.gzip].map
    (fun t =>
      let c := (compress_data K data t).1
      (c, t, get_compression_ratio data.length c.length))

/-- Python's `min(results, key=...)`: the first element attaining the minimal
ratio. -/
def minByRatio (x : List Nat × CompressionType × ℚ) :
    List (List Nat × CompressionType × ℚ) → List Nat × CompressionType × ℚ
  | [] => x
  | y :: ys => if y.2.2 < x.2.2 then minByRatio y ys else minByRatio x ys

/-- `CompressionUtil.choose_best_compression`. -/
def choose_best_compression (K : Codecs) (data : List Nat) :
    List Nat × CompressionType :=
  if data.length < 1024 then (data, .none)
  else
    match compressionTrials K data with
    | [] => (data, .none)
    | r :: rs =>
      let best := minByRatio r rs
      if best.2.2 < 9 / 10 then (best.1, best.2.1) else (data, .none)

/-! ### shared/models.py and server/main.py -/

/-- class FileInfo (the fields used by the server's sync endpoint). -/
structure FileInfo where
  path : String
  size : Nat
  checksum : String
  modified_time : Int
  is_directory : Bool := false
deriving DecidableEq

/-- The reconciliation loop of the server's `POST /sync` handler
(`sync_files` in server/main.py): returns `(files_to_sync, conflicts)`.
The single pass appending each client file to at most one of the two lists is
rendered as two filters. -/
def sync_files (clientFiles serverFiles : List FileInfo) :
    List FileInfo × List String :=
  let fromClient := clientFiles.filter (fun cf =>
    match serverFiles.find? (fun f => f.path = cf.path) with
    | Option.none => true
    | some sf =>
        sf.checksum ≠ cf.checksum ∧ ¬(sf.modified_time > cf.modified_time))
  let conflicts := (clientFiles.filter (fun cf =>
    match serverFiles.find? (fun f => f.path = cf.path) with
    | Option.none => false
    | some sf =>
        sf.checksum ≠ cf.checksum ∧ sf.modified_time > cf.modified_time)).map
          (fun cf => cf.path)
  let clientPaths := clientFiles.map (fun f => f.path)
  let serverOnly := serverFiles.filter (fun sf => !(clientPaths.contains sf.path))
  (fromClient ++ serverOnly, conflicts)

/-- Server-side state touched by the `DELETE /files/{path}` endpoint: the
files under the sync directory and the `file_metadata` rows, both keyed by
path. -/
structure ServerState where
  files : List (String × List Nat)
  metadata : List (String × FileInfo)
deriving DecidableEq

/-- The `delete_file` endpoint of server/main.py on its non-exceptional path:
unlink the file if it exists (a no-op when absent), delete the metadata rows
whose path equals the normalized path, and report success.  `normalize` stands
for `shared.utils.normalize_path`, an external path-library call. -/
def delete_file (normalize : String → String) (filePath : String)
    (s : ServerState) : Bool × ServerState :=
  let files' := s.files.filter (fun e => e.1 ≠ filePath)
  let metadata' := s.metadata.filter (fun e => e.1 ≠ normalize filePath)
  (true, { files := files', metadata := metadata' })

/-! ### client/sync_engine.py -/

/-- `self._base_reconnect_delay` (seconds). -/
def baseReconnectDelay : ℚ := 1

/-- `self._max_reconnect_delay` (seconds). -/
def maxReconnectDelay : ℚ := 60

/-- The pre-jitter delay computed by `SyncEngine._reconnect_websocket` for the
given (1-based) attempt number. -/
def reconnectDelay (attempt : Nat) : ℚ :=
  min maxReconnectDelay (baseReconnectDelay * 2 ^ (attempt - 1))

/-- The jittered delay: `delay + random.uniform(0, delay * 0.1)`, with the
random draw `r` passed explicitly. -/
def jitteredReconnectDelay (attempt : Nat) (r : ℚ) : ℚ :=
  reconnectDelay attempt + r

/-! ### Concrete data used by witnesses and counterexamples -/

/-- Identity codecs: trivially satisfy the round-trip contract. -/
def idCodecs : Codecs :=
  { gzipC := id, gzipD := id, zlibC := id, zlibD := id, lz4C := id, lz4D := id,
    lz4Avail := true }

/-- Codecs whose compressors always emit 1152 bytes: on a 1280-byte input the
compression ratio is exactly 9/10. -/
def cexCodecs : Codecs :=
  { gzipC := fun _ => List.replicate 1152 0, gzipD := id
    zlibC := fun _ => List.replicate 1152 0, zlibD := id
    lz4C := fun _ => List.replicate 1152 0, lz4D := id
    lz4Avail := true }

/-- A 1280-byte input for the compression-choice counterexample. -/
def cexData : List Nat := List.replicate 1280 0

/-- A client-manifest entry used in witnesses. -/
def cfW : FileInfo := { path := "a", size := 1, checksum := "h1", modified_time := 0 }

/-- Client file for the equal-timestamp reconciliation counterexample. -/
def cfEq : FileInfo := { path := "a", size := 1, checksum := "h1", modified_time := 5 }

/-- Server file with the same path and timestamp but a different checksum. -/
def sfEq : FileInfo := { path := "a", size := 1, checksum := "h2", modified_time := 5 }

/-- A delta with no chunks at all (zero-size file). -/
def deltaZeroW : FileDelta :=
  { unchanged_chunks := [], changed_chunks := [], total_size := 0 }

/-- A concrete server state used by witnesses. -/
def stateW : ServerState :=
  { files := [("a", [1, 2]), ("b", [3])]
    metadata := [("a", cfW), ("b", sfEq)] }

end Syncer

/-! ## Theorems -/

namespace Syncer

/-- Chunks produced by the signature loop carry no data. -/
theorem chunksFrom_data_eq_none (hash : List Nat → String) (chunkSize : Nat) :
    ∀ (offset : Nat) (content : List Nat),
      ∀ c ∈ chunksFrom hash chunkSize offset content, c.data = Option.none := by
  intro offset content
  induction offset, content using chunksFrom.induct hash chunkSize with
  | case1 offset content h =>
    rw [chunksFrom, dif_pos h]
    intro c hc
    cases hc
  | case2 offset content h cd ih =>
    rw [chunksFrom, dif_neg h]
    intro c hc
    rcases List.mem_cons.mp hc with rfl | hc'
    · rfl
    · exact ih c hc'

/-- Every chunk produced from position `offset` sits at or after `offset`. -/
theorem chunksFrom_offset_le (hash : List Nat → String) (chunkSize : Nat) :
    ∀ (offset : Nat) (content : List Nat),
      ∀ c ∈ chunksFrom hash chunkSize offset content, offset ≤ c.offset := by
  intro offset content
  induction offset, content using chunksFrom.induct hash chunkSize with
  | case1 offset content h =>
    rw [chunksFrom, dif_pos h]
    intro c hc
    cases hc
  | case2 offset content h cd ih =>
    rw [chunksFrom, dif_neg h]
    intro c hc
    rcases List.mem_cons.mp hc with rfl | hc'
    · exact le_refl _
    · exact le_trans (Nat.le_add_right _ _) (ih c hc')

/-- The chunk offsets produced by the signature loop are strictly
increasing. -/
theorem chunksFrom_pairwise (hash : List Nat → String) (chunkSize : Nat) :
    ∀ (offset : Nat) (content : List Nat),
      (chunksFrom hash chunkSize offset content).Pairwise
        (fun a b => a.offset < b.offset) := by
  intro offset content
  induction offset, content using chunksFrom.induct hash chunkSize with
  | case1 offset content h =>
    rw [chunksFrom, dif_pos h]
    exact List.Pairwise.nil
  | case2 offset content h cd ih =>
    rw [chunksFrom, dif_neg h]
    push_neg at h
    have hlenpos : 0 < (content.take chunkSize).length := by
      rw [List.length_take]
      have h1 : 0 < chunkSize := Nat.pos_of_ne_zero h.1
      have h2 : 0 < content.length := List.length_pos.mpr h.2
      exact lt_min h1 h2
    refine List.Pairwise.cons (fun b hb => ?_) ih
    have := chunksFrom_offset_le hash chunkSize _ _ b hb
    simpa using lt_of_lt_of_le (by omega) this

/-- Concatenating each chunk's slice of the source reproduces the chunked
region: the chunks of `source.drop offset` starting at `offset` cover exactly
`source.drop offset`. -/
theorem chunksFrom_slice_flatten (hash : List Nat → String) (chunkSize : Nat)
    (hcs : chunkSize ≠ 0) (source : List Nat) :
    ∀ (offset : Nat) (content : List Nat), content = source.drop offset →
      ((chunksFrom hash chunkSize offset content).map
        (fun c => (source.drop c.offset).take c.size)).flatten = content := by
  intro offset content
  induction offset, content using chunksFrom.induct hash chunkSize with
  | case1 offset content h =>
    intro hcont
    rw [chunksFrom, dif_pos h]
    rcases h with h0 | hnil
    · exact absurd h0 hcs
    · rw [hnil]
      rfl
  | case2 offset content h cd ih =>
    intro hcont
    rw [chunksFrom, dif_neg h]
    simp only [List.map_cons, List.flatten_cons]
    have hhead : (source.drop offset).take (content.take chunkSize).length =
        content.take chunkSize := by
      rw [← hcont, List.length_take]
      rcases le_total chunkSize content.length with hle | hle
      · rw [min_eq_left hle]
      · rw [min_eq_right hle, List.take_length, List.take_of_length_le hle]
    have htail : content.drop chunkSize =
        source.drop (offset + (content.take chunkSize).length) := by
      rw [← List.drop_drop, ← hcont, List.length_take]
      rcases le_total chunkSize content.length with hle | hle
      · rw [min_eq_left hle]
      · rw [min_eq_right hle, List.drop_length, List.drop_eq_nil_of_le hle]
    rw [hhead, ih htail]
    exact List.take_append_drop chunkSize content

/-- A permutation of a strictly offset-increasing list that is itself sorted
by offset is equal to it. -/
theorem perm_pairwise_offset_eq :
    ∀ l₁ l₂ : List FileChunk, l₁.Perm l₂ →
      l₁.Pairwise (fun a b => a.offset ≤ b.offset) →
      l₂.Pairwise (fun a b => a.offset < b.offset) → l₁ = l₂ := by
  intro l₁
  induction l₁ with
  | nil =>
    intro l₂ hp _ _
    rw [hp.symm.eq_nil]
  | cons a t ih =>
    intro l₂ hp hs₁ hs₂
    cases l₂ with
    | nil => cases hp.eq_nil
    | cons b t₂ =>
      have hab : a = b := by
        by_contra hne
        have hbmem : b ∈ a :: t := hp.mem_iff.mpr (List.mem_cons_self b t₂)
        have hamem : a ∈ b :: t₂ := hp.mem_iff.mp (List.mem_cons_self a t)
        have hb' : b ∈ t := by
          rcases List.mem_cons.mp hbmem with hba | hbt
          · exact absurd hba.symm hne
          · exact hbt
        have ha' : a ∈ t₂ := by
          rcases List.mem_cons.mp hamem with hba | hat
          · exact absurd hba hne
          · exact hat
        have h1 : a.offset ≤ b.offset := (List.pairwise_cons.mp hs₁).1 b hb'
        have h2 : b.offset < a.offset := (List.pairwise_cons.mp hs₂).1 a ha'
        omega
      subst hab
      rw [ih t₂ hp.cons_inv (List.pairwise_cons.mp hs₁).2
        (List.pairwise_cons.mp hs₂).2]

/-- Filtering twice with the same predicate is the same as filtering once. -/
theorem filter_idem {α : Type} (p : α → Bool) :
    ∀ l : List α, (l.filter p).filter p = l.filter p
  | [] => rfl
  | a :: l => by
    cases hp : p a <;> simp [List.filter_cons, hp, filter_idem p l]

/-- Claim C10: `calculate_transfer_savings` is total and never divides by
zero: a delta of total size zero yields transfer ratio 1 and savings 0; a
delta with no changed chunks and positive total size yields savings 100; a
delta whose chunks are all changed (and whose total size is the sum of their
sizes) yields savings 0. -/
theorem calculate_transfer_savings_spec :
    (∀ delta : FileDelta, delta.total_size = 0 →
      (calculate_transfer_savings delta).transfer_ratio = 1 ∧
      (calculate_transfer_savings delta).savings_percent = 0) ∧
    (∀ delta : FileDelta, delta.changed_chunks = [] → delta.total_size ≠ 0 →
      (calculate_transfer_savings delta).savings_percent = 100) ∧
    (∀ delta : FileDelta, delta.unchanged_chunks = [] →
      delta.total_size = (delta.changed_chunks.map (fun c => c.size)).sum →
      delta.total_size ≠ 0 →
      (calculate_transfer_savings delta).savings_percent = 0) := by
  refine ⟨fun delta h => ?_, fun delta hch h => ?_, fun delta hun hts h => ?_⟩
  · simp [calculate_transfer_savings, h]
  · simp [calculate_transfer_savings, h, hch]
  · have hpos : (0 : ℚ) < (delta.total_size : ℚ) := by
      exact_mod_cast Nat.pos_of_ne_zero h
    simp only [calculate_transfer_savings, if_neg h]
    rw [show (((delta.changed_chunks.map (fun c => c.size)).sum : Nat) : ℚ) =
        (delta.total_size : ℚ) from by exact_mod_cast hts.symm,
      div_self (ne_of_gt hpos)]
    ring

/-- Claim C10 witness: the zero-size delta. -/
theorem calculate_transfer_savings_spec_witness :
    (calculate_transfer_savings deltaZeroW).transfer_ratio = 1 ∧
    (calculate_transfer_savings deltaZeroW).savings_percent = 0 :=
  calculate_transfer_savings_spec.1 deltaZeroW rfl

/-- Claim C8: for reconnect attempts 1..10, the pre-jitter delay equals
`min 60 (2 ^ (attempt - 1))` seconds, the delay is non-decreasing in the
attempt number, and any jitter drawn from `[0, delay / 10]` adds at most 10%
of the delay. -/
theorem reconnect_backoff_spec (n : Nat) (h1 : 1 ≤ n) (h2 : n ≤ 10) :
    reconnectDelay n = min 60 (2 ^ (n - 1)) ∧
    (∀ m : Nat, n ≤ m → m ≤ 10 → reconnectDelay n ≤ reconnectDelay m) ∧
    (∀ r : ℚ, 0 ≤ r → r ≤ reconnectDelay n * (1 / 10) →
      jitteredReconnectDelay n r - reconnectDelay n ≤ reconnectDelay n * (1 / 10)) := by
  refine ⟨?_, fun m hnm _ => ?_, fun r hr0 hr1 => ?_⟩
  · simp [reconnectDelay, baseReconnectDelay, maxReconnectDelay]
  · have hpow : (2 : ℚ) ^ (n - 1) ≤ 2 ^ (m - 1) :=
      pow_le_pow_right₀ (by norm_num) (Nat.sub_le_sub_right hnm 1)
    simp only [reconnectDelay, baseReconnectDelay, one_mul]
    exact min_le_min le_rfl hpow
  · simp only [jitteredReconnectDelay, add_sub_cancel_left]
    exact hr1

/-- Claim C8 witness: attempt 3 has pre-jitter delay `min 60 4 = 4` s. -/
theorem reconnect_backoff_spec_witness :
    reconnectDelay 3 = min 60 (2 ^ (3 - 1)) :=
  (reconnect_backoff_spec 3 (by decide) (by decide)).1

/-- Claim C9: the delete endpoint reports success, leaves no file entry and no
metadata row for the deleted path, and performing the deletion a second time
succeeds again without changing the state. -/
theorem delete_file_idempotent (normalize : String → String) (p : String)
    (s : ServerState) :
    (delete_file normalize p s).1 = true ∧
    (delete_file normalize p (delete_file normalize p s).2).1 = true ∧
    (delete_file normalize p (delete_file normalize p s).2).2 =
      (delete_file normalize p s).2 ∧
    (delete_file normalize p s).2.files.all (fun e => e.1 ≠ p) = true ∧
    (delete_file normalize p s).2.metadata.all (fun e => e.1 ≠ normalize p) = true := by
  refine ⟨rfl, rfl, ?_, ?_, ?_⟩
  · simp only [delete_file, ServerState.mk.injEq]
    exact ⟨filter_idem _ _, filter_idem _ _⟩
  · simp only [delete_file, List.all_eq_true]
    intro e he
    simpa using (List.mem_filter.mp he).2
  · simp only [delete_file, List.all_eq_true]
    intro e he
    simpa using (List.mem_filter.mp he).2

/-- Claim C5: decompressing with the algorithm tag returned by
`compress_data` recovers the original bytes, for every requested algorithm
and whether or not the lz4 library is available, provided the codec
libraries satisfy their round-trip contract. -/
theorem compress_decompress_roundtrip (K : Codecs) (hK : K.RoundTrip)
    (d : List Nat) (t : CompressionType) :
    decompress_data K (compress_data K d t).1 (compress_data K d t).2 = d := by
  obtain ⟨hg, hz, hl⟩ := hK
  cases t with
  | none => rfl
  | gzip => simp [compress_data, decompress_data, hg]
  | zlib => simp [compress_data, decompress_data, hz]
  | lz4 =>
    cases hA : K.lz4Avail <;>
      simp [compress_data, decompress_data, hA, hl, hz]

/-- Claim C5 witness: the identity codecs satisfy the round-trip contract, at
a concrete payload and the lz4 tag. -/
theorem compress_decompress_roundtrip_witness :
    decompress_data idCodecs (compress_data idCodecs [1, 2, 3] CompressionType.lz4).1
      (compress_data idCodecs [1, 2, 3] CompressionType.lz4).2 = [1, 2, 3] :=
  compress_decompress_roundtrip idCodecs
    ⟨fun _ => rfl, fun _ => rfl, fun _ => rfl⟩ [1, 2, 3] CompressionType.lz4

/-- Claim C6: the decision table of `should_compress` holds, any name whose
lower-cased form ends in a pre-compressed extension is rejected regardless of
size, and the decision depends only on the lower-cased file name
(case-insensitive matching). -/
theorem should_compress_spec :
    should_compress 100 = false ∧
    should_compress 512 = true ∧
    should_compress 10000 (some "x.jpg".toList) = false ∧
    should_compress 256 (some "x.txt".toList) = true ∧
    should_compress 255 (some "x.txt".toList) = false ∧
    (∀ (s : Nat) (name ext : List Char), ext ∈ compressedExtensions →
      ext.isSuffixOf (name.map Char.toLower) = true →
      should_compress s (some name) = false) ∧
    (∀ (s : Nat) (n₁ n₂ : List Char), n₁.map Char.toLower = n₂.map Char.toLower →
      should_compress s (some n₁) = should_compress s (some n₂)) := by
  refine ⟨by decide, by decide, by decide, by decide, by decide,
    fun s name ext hmem hsuf => ?_, fun s n₁ n₂ hmap => ?_⟩
  · by_cases hn : name = []
    · subst hn
      have hext : ext = [] := by
        have h' := List.isSuffixOf_iff_suffix.mp hsuf
        simpa [List.suffix_nil] using h'
      subst hext
      exact absurd hmem (by decide)
    · have hne : name.isEmpty = false := by simpa [List.isEmpty_iff] using hn
      have hany : compressedExtensions.any
          (fun e => e.isSuffixOf (name.map Char.toLower)) = true :=
        List.any_eq_true.mpr ⟨ext, hmem, hsuf⟩
      simp [should_compress, hne, hany]
  · by_cases hn : n₁ = []
    · subst hn
      have : n₂ = [] := by
        have := congrArg List.length hmap
        simpa using List.eq_nil_of_length_eq_zero this.symm
      subst this
      rfl
    · have hn2 : n₂ ≠ [] := by
        intro he
        subst he
        simp at hmap
        exact hn hmap
      have he1 : n₁.isEmpty = false := by simpa [List.isEmpty_iff] using hn
      have he2 : n₂.isEmpty = false := by simpa [List.isEmpty_iff] using hn2
      simp only [should_compress, he1, he2, Bool.false_eq_true, if_false, hmap]

/-- Claim C6 witness: an upper-cased archive name is rejected at a large
size. -/
theorem should_compress_spec_witness :
    should_compress 999999 (some "A.ZIP".toList) = false :=
  should_compress_spec.2.2.2.2.2.1 999999 "A.ZIP".toList ".zip".toList
    (by decide) (by decide)

/-- In a list of files whose paths are distinct, `find?` on a path held by a
member returns exactly that member. -/
theorem find?_path_eq (l : List FileInfo) (hn : (l.map (fun f => f.path)).Nodup)
    (sf : FileInfo) (hmem : sf ∈ l) (p : String) (hp : sf.path = p) :
    l.find? (fun f => f.path = p) = some sf := by
  induction l with
  | nil => cases hmem
  | cons a t ih =>
    simp only [List.map_cons, List.nodup_cons] at hn
    rcases List.mem_cons.mp hmem with rfl | hmt
    · exact List.find?_cons_of_pos t (by simp [hp])
    · have hap : a.path ≠ p := by
        intro he
        have hmm : a.path ∈ List.map (fun f => f.path) t := by
          rw [he, ← hp]
          exact List.mem_map_of_mem (fun f => f.path) hmt
        exact hn.1 hmm
      rw [List.find?_cons_of_neg t (by simp [hap])]
      exact ih hn.2 hmt

/-- Claim C2: the reconciliation endpoint's plan satisfies: a client file with
no server counterpart goes to `files_to_sync` and is never a conflict; a
client file whose server counterpart differs in checksum and has a strictly
newer server timestamp is reported as a conflict; a server file absent from
the client manifest goes to `files_to_sync`. -/
theorem sync_files_reconciliation (clientFiles serverFiles : List FileInfo)
    (hs : (serverFiles.map (fun f => f.path)).Nodup) :
    (∀ cf ∈ clientFiles, (∀ sf ∈ serverFiles, sf.path ≠ cf.path) →
      cf ∈ (sync_files clientFiles serverFiles).1 ∧
      cf.path ∉ (sync_files clientFiles serverFiles).2) ∧
    (∀ cf ∈ clientFiles, ∀ sf ∈ serverFiles, sf.path = cf.path →
      sf.checksum ≠ cf.checksum → sf.modified_time > cf.modified_time →
      cf.path ∈ (sync_files clientFiles serverFiles).2) ∧
    (∀ sf ∈ serverFiles, sf.path ∉ clientFiles.map (fun f => f.path) →
      sf ∈ (sync_files clientFiles serverFiles).1) := by
  refine ⟨fun cf hc habs => ⟨?_, ?_⟩, fun cf hc sf hsf hpath hsum ht => ?_,
    fun sf hsf habs => ?_⟩
  · have hfind : serverFiles.find? (fun f => f.path = cf.path) = Option.none :=
      List.find?_eq_none.mpr (fun x hx => by simpa using habs x hx)
    simp only [sync_files]
    exact List.mem_append_left _ (List.mem_filter.mpr ⟨hc, by simp [hfind]⟩)
  · intro hmem
    simp only [sync_files, List.mem_map] at hmem
    obtain ⟨cf', hcf', hpath'⟩ := hmem
    have h2 := (List.mem_filter.mp hcf').2
    have hfind : serverFiles.find? (fun f => f.path = cf'.path) = Option.none := by
      rw [hpath']
      exact List.find?_eq_none.mpr (fun x hx => by simpa using habs x hx)
    rw [hfind] at h2
    cases h2
  · have hfind : serverFiles.find? (fun f => f.path = cf.path) = some sf :=
      find?_path_eq serverFiles hs sf hsf cf.path hpath
    simp only [sync_files]
    refine List.mem_map.mpr ⟨cf, List.mem_filter.mpr ⟨hc, ?_⟩, rfl⟩
    simp [hfind, hsum, ht]
  · simp only [sync_files]
    refine List.mem_append_right _ (List.mem_filter.mpr ⟨hsf, ?_⟩)
    simpa using habs

/-- Claim C2 witness: a client file against an empty server manifest is queued
for sync and not a conflict. -/
theorem sync_files_reconciliation_witness :
    cfW ∈ (sync_files [cfW] []).1 ∧ cfW.path ∉ (sync_files [cfW] []).2 :=
  (sync_files_reconciliation [cfW] [] (by decide)).1 cfW (by decide)
    (by intro sf hsf; cases hsf)

/-- Claim C3 counterexample: for a client/server pair with equal path, equal
timestamp and differing checksums, the planner does take action: the client
file is placed in `files_to_sync` (conflicts stays empty), contradicting the
claim that the path appears in neither list. -/
theorem sync_files_equal_ts_cex :
    cfEq ∈ (sync_files [cfEq] [sfEq]).1 ∧ (sync_files [cfEq] [sfEq]).2 = [] := by
  decide

/-- Claim C3 amended: with equal timestamps and differing checksums the file
is never reported as a conflict, but it is not left alone either: the client's
copy is placed in `files_to_sync` (the client-is-authoritative push branch). -/
theorem sync_files_equal_timestamps (clientFiles serverFiles : List FileInfo)
    (hcn : (clientFiles.map (fun f => f.path)).Nodup)
    (hsn : (serverFiles.map (fun f => f.path)).Nodup)
    (cf sf : FileInfo) (hc : cf ∈ clientFiles) (hsf : sf ∈ serverFiles)
    (hpath : sf.path = cf.path) (hsum : sf.checksum ≠ cf.checksum)
    (ht : sf.modified_time = cf.modified_time) :
    cf ∈ (sync_files clientFiles serverFiles).1 ∧
    cf.path ∉ (sync_files clientFiles serverFiles).2 := by
  have hfind : serverFiles.find? (fun f => f.path = cf.path) = some sf :=
    find?_path_eq serverFiles hsn sf hsf cf.path hpath
  constructor
  · simp only [sync_files]
    refine List.mem_append_left _ (List.mem_filter.mpr ⟨hc, ?_⟩)
    simp [hfind, hsum, ht]
  · intro hmem
    simp only [sync_files, List.mem_map] at hmem
    obtain ⟨cf', hcf', hpath'⟩ := hmem
    have hcf'mem := (List.mem_filter.mp hcf').1
    have hcc : cf' = cf :=
      List.inj_on_of_nodup_map hcn hcf'mem hc hpath'
    subst hcc
    have h2 := (List.mem_filter.mp hcf').2
    rw [hfind] at h2
    simp [ht] at h2

/-- Claim C3 amended witness: the concrete equal-timestamp pair. -/
theorem sync_files_equal_timestamps_witness :
    cfEq ∈ (sync_files [cfEq] [sfEq]).1 ∧
    cfEq.path ∉ (sync_files [cfEq] [sfEq]).2 :=
  sync_files_equal_timestamps [cfEq] [sfEq] (by decide) (by decide) cfEq sfEq
    (by decide) (by decide) (by decide) (by decide) (by decide)

/-- `minByRatio` picks an element of the candidate list. -/
theorem minByRatio_mem (x : List Nat × CompressionType × ℚ)
    (l : List (List Nat × CompressionType × ℚ)) : minByRatio x l ∈ x :: l := by
  induction l generalizing x with
  | nil => simp [minByRatio]
  | cons y ys ih =>
    simp only [minByRatio]
    by_cases hlt : y.2.2 < x.2.2
    · rw [if_pos hlt]
      exact List.mem_cons_of_mem x (ih y)
    · rw [if_neg hlt]
      rcases List.mem_cons.mp (ih x) with h | h
      · rw [h]
        exact List.mem_cons_self _ _
      · exact List.mem_cons_of_mem x (List.mem_cons_of_mem y h)

/-- `minByRatio` attains the minimal ratio among the candidates. -/
theorem minByRatio_le (x : List Nat × CompressionType × ℚ)
    (l : List (List Nat × CompressionType × ℚ)) :
    ∀ z ∈ x :: l, (minByRatio x l).2.2 ≤ z.2.2 := by
  induction l generalizing x with
  | nil =>
    intro z hz
    rcases List.mem_cons.mp hz with rfl | h
    · simp [minByRatio]
    · cases h
  | cons y ys ih =>
    intro z hz
    simp only [minByRatio]
    by_cases hlt : y.2.2 < x.2.2
    · rw [if_pos hlt]
      rcases List.mem_cons.mp hz with hzx | hz'
      · calc (minByRatio y ys).2.2 ≤ y.2.2 := ih y y (List.mem_cons_self _ _)
          _ ≤ x.2.2 := le_of_lt hlt
          _ = z.2.2 := by rw [hzx]
      · exact ih y z hz'
    · rw [if_neg hlt]
      rcases List.mem_cons.mp hz with hzx | hz'
      · rw [hzx]
        exact ih x x (List.mem_cons_self _ _)
      · rcases List.mem_cons.mp hz' with hzy | hz''
        · rw [hzy]
          exact le_trans (ih x x (List.mem_cons_self _ _)) (not_lt.mp hlt)
        · exact ih x z (List.mem_cons_of_mem x hz'')

/-- The trial list written out. -/
theorem compressionTrials_eq (K : Codecs) (d : List Nat) :
    compressionTrials K d =
      [((compress_data K d CompressionType.lz4).1, CompressionType.lz4,
          get_compression_ratio d.length (compress_data K d CompressionType.lz4).1.length),
       ((compress_data K d CompressionType.zlib).1, CompressionType.zlib,
          get_compression_ratio d.length (compress_data K d CompressionType.zlib).1.length),
       ((compress_data K d CompressionType.gzip).1, CompressionType.gzip,
          get_compression_ratio d.length (compress_data K d CompressionType.gzip).1.length)] :=
  rfl

/-- The trial list is never empty. -/
theorem compressionTrials_ne_nil (K : Codecs) (d : List Nat) :
    compressionTrials K d ≠ [] := by
  rw [compressionTrials_eq]
  exact List.cons_ne_nil _ _

/-- Every trial entry's ratio is its output length over the input length. -/
theorem compressionTrials_ratio (K : Codecs) (d : List Nat) (hd : d.length ≠ 0) :
    ∀ x ∈ compressionTrials K d, x.2.2 = (x.1.length : ℚ) / (d.length : ℚ) := by
  intro x hx
  obtain ⟨t, _, rfl⟩ := List.mem_map.mp hx
  simp [get_compression_ratio, hd]

/-- No trial entry is tagged with the `none` algorithm. -/
theorem compressionTrials_tag (K : Codecs) (d : List Nat) :
    ∀ x ∈ compressionTrials K d, x.2.1 ≠ CompressionType.none := by
  intro x hx
  obtain ⟨t, ht, rfl⟩ := List.mem_map.mp hx
  simp only [List.mem_cons, List.not_mem_nil, or_false] at ht
  rcases ht with rfl | rfl | rfl <;> simp

/-- Claim C7 counterexample: on a 1280-byte input whose every trial compresses
to exactly 1152 bytes — a reduction of exactly 10%, so the smallest output
beats the raw size by at least 10% — the function still returns the data
uncompressed, because the source requires the ratio to be strictly below 0.9. -/
theorem choose_best_compression_cex :
    1024 ≤ cexData.length ∧
    (∀ x ∈ compressionTrials cexCodecs cexData, x.2.2 ≤ 9 / 10) ∧
    choose_best_compression cexCodecs cexData = (cexData, CompressionType.none) := by
  have hlen : cexData.length = 1280 := List.length_replicate 1280 0
  have hclen : (List.replicate 1152 (0 : Nat)).length = 1152 :=
    List.length_replicate 1152 0
  have hno : ¬(cexData.length < 1024) := by rw [hlen]; norm_num
  have htr : compressionTrials cexCodecs cexData =
      [(List.replicate 1152 0, CompressionType.lz4, 9 / 10),
       (List.replicate 1152 0, CompressionType.zlib, 9 / 10),
       (List.replicate 1152 0, CompressionType.gzip, 9 / 10)] := by
    rw [compressionTrials_eq]
    norm_num [compress_data, cexCodecs, get_compression_ratio, hlen, hclen]
  refine ⟨by rw [hlen]; norm_num, fun x hx => ?_, ?_⟩
  · rw [htr] at hx
    simp only [List.mem_cons, List.not_mem_nil, or_false] at hx
    rcases hx with rfl | rfl | rfl <;> norm_num
  · norm_num [choose_best_compression, hno, htr, minByRatio]

/-- Claim C7 amended: data under 1 KiB is returned uncompressed; otherwise the
source trial-compresses with all codecs and returns the (first) smallest
output with its attempted algorithm tag exactly when its ratio is strictly
below 0.9 — that is, when it beats the raw size by strictly more than 10% —
and returns the data uncompressed otherwise. -/
theorem choose_best_compression_spec (K : Codecs) (d : List Nat) :
    (d.length < 1024 → choose_best_compression K d = (d, CompressionType.none)) ∧
    (1024 ≤ d.length →
      ((choose_best_compression K d).2 = CompressionType.none →
        choose_best_compression K d = (d, CompressionType.none) ∧
        ∀ x ∈ compressionTrials K d, ¬(x.2.2 < 9 / 10)) ∧
      ((choose_best_compression K d).2 ≠ CompressionType.none →
        (∃ x ∈ compressionTrials K d,
          (choose_best_compression K d).1 = x.1 ∧
          (choose_best_compression K d).2 = x.2.1 ∧ x.2.2 < 9 / 10) ∧
        (∀ x ∈ compressionTrials K d,
          (choose_best_compression K d).1.length ≤ x.1.length))) := by
  constructor
  · intro h
    simp [choose_best_compression, h]
  · intro h
    have hno : ¬(d.length < 1024) := by omega
    have hdpos : (0 : ℚ) < (d.length : ℚ) := by
      have : 0 < d.length := by omega
      exact_mod_cast this
    obtain ⟨r, rs, htr⟩ : ∃ r rs, compressionTrials K d = r :: rs := by
      cases hc : compressionTrials K d with
      | nil => exact absurd hc (compressionTrials_ne_nil K d)
      | cons r rs => exact ⟨r, rs, rfl⟩
    have hval : choose_best_compression K d =
        (if (minByRatio r rs).2.2 < 9 / 10
          then ((minByRatio r rs).1, (minByRatio r rs).2.1)
          else (d, CompressionType.none)) := by
      simp [choose_best_compression, hno, htr]
    have hbmem : minByRatio r rs ∈ compressionTrials K d := by
      rw [htr]
      exact minByRatio_mem r rs
    have hble : ∀ z ∈ compressionTrials K d, (minByRatio r rs).2.2 ≤ z.2.2 := by
      rw [htr]
      exact minByRatio_le r rs
    by_cases hb : (minByRatio r rs).2.2 < 9 / 10
    · rw [if_pos hb] at hval
      constructor
      · intro hnone
        rw [hval] at hnone
        exact absurd hnone (compressionTrials_tag K d _ hbmem)
      · intro _
        refine ⟨⟨minByRatio r rs, hbmem, by rw [hval], by rw [hval], hb⟩,
          fun x hx => ?_⟩
        have hr1 := compressionTrials_ratio K d (by omega) _ hbmem
        have hr2 := compressionTrials_ratio K d (by omega) x hx
        have hle := hble x hx
        rw [hr1, hr2] at hle
        have hlen : ((minByRatio r rs).1.length : ℚ) ≤ (x.1.length : ℚ) :=
          (div_le_div_iff_of_pos_right hdpos).mp hle
        rw [hval]
        exact_mod_cast hlen
    · rw [if_neg hb] at hval
      constructor
      · intro _
        refine ⟨hval, fun x hx hxlt => ?_⟩
        exact hb (lt_of_le_of_lt (hble x hx) hxlt)
      · intro hne
        rw [hval] at hne
        simp at hne

/-- Claim C7 amended witness: a short input is stored unchanged. -/
theorem choose_best_compression_spec_witness :
    choose_best_compression idCodecs [1, 2, 3] = ([1, 2, 3], CompressionType.none) :=
  (choose_best_compression_spec idCodecs [1, 2, 3]).1 (by decide)

/-- Applying a delta of `A` against any target signature, with `A` itself as
the source for unchanged chunks, reconstructs `A` exactly: every chunk of the
sorted chunk list contributes precisely its own slice of `A`, whether carried
as data (changed) or re-read from the source (unchanged). -/
theorem apply_create_delta_eq (hash : List Nat → String) (chunkSize : Nat)
    (hcs : chunkSize ≠ 0) (A : List Nat) (target : List FileChunk) :
    apply_delta (create_delta hash chunkSize A target) A = A := by
  have hpair := chunksFrom_pairwise hash chunkSize 0 A
  have hdata := chunksFrom_data_eq_none hash chunkSize 0 A
  set l : List FileChunk := chunksFrom hash chunkSize 0 A with hldef
  set p : FileChunk → Bool :=
    fun c => (target.map (fun c => c.checksum)).contains c.checksum with hpdef
  set upd : FileChunk → FileChunk :=
    fun c => { c with data := some ((A.drop c.offset).take c.size) } with hupddef
  set dec : FileChunk → FileChunk := fun c => if p c then c else upd c with hdecdef
  have hoff : ∀ c, (dec c).offset = c.offset := by
    intro c
    rw [hdecdef]
    by_cases hc : p c <;> simp [hc, hupddef]
  set allC : List FileChunk :=
    l.filter p ++ (l.filter (fun c => !(p c))).map upd with hallC
  have hstart : apply_delta (create_delta hash chunkSize A target) A =
      ((allC.mergeSort (fun a b => a.offset ≤ b.offset)).map
        (renderChunk A)).flatten := rfl
  have hsplit : allC = (l.filter p).map dec ++ (l.filter (fun c => !(p c))).map dec := by
    rw [hallC]
    congr 1
    · have h1 : ∀ c ∈ l.filter p, dec c = id c := by
        intro c hc
        have hpc : p c = true := List.of_mem_filter hc
        rw [hdecdef]
        simp [hpc]
      rw [List.map_congr_left h1, List.map_id]
    · refine (List.map_congr_left fun c hc => ?_).symm
      have hpc : p c = false := by
        have := List.of_mem_filter hc
        simpa using this
      rw [hdecdef]
      simp [hpc]
  have hperm : allC.Perm (l.map dec) := by
    rw [hsplit, ← List.map_append]
    exact (List.filter_append_perm p l).map dec
  have hmsperm : (allC.mergeSort (fun a b => a.offset ≤ b.offset)).Perm (l.map dec) :=
    (List.mergeSort_perm allC _).trans hperm
  have hms : (allC.mergeSort (fun a b => a.offset ≤ b.offset)).Pairwise
      (fun a b : FileChunk => decide (a.offset ≤ b.offset) = true) :=
    List.sorted_mergeSort
      (fun a b c hab hbc => by
        simp only [decide_eq_true_eq] at *
        omega)
      (fun a b => by
        simp only [Bool.or_eq_true, decide_eq_true_eq]
        omega)
      allC
  have hsorted : (allC.mergeSort (fun a b => a.offset ≤ b.offset)).Pairwise
      (fun a b : FileChunk => a.offset ≤ b.offset) :=
    hms.imp (fun h => of_decide_eq_true h)
  have htgt : (l.map dec).Pairwise (fun a b => a.offset < b.offset) := by
    rw [List.pairwise_map]
    exact hpair.imp (fun {a b} h => by rw [hoff a, hoff b]; exact h)
  have hfin : allC.mergeSort (fun a b => a.offset ≤ b.offset) = l.map dec :=
    perm_pairwise_offset_eq _ _ hmsperm hsorted htgt
  rw [hstart, hfin, List.map_map]
  have hren : ∀ c ∈ l, (renderChunk A ∘ dec) c = (A.drop c.offset).take c.size := by
    intro c hc
    have hd : c.data = Option.none := hdata c hc
    by_cases hpc : p c = true
    · simp only [Function.comp_apply]
      rw [hdecdef]
      simp only [hpc, if_true]
      rw [renderChunk, hd]
    · simp only [Function.comp_apply]
      rw [hdecdef]
      simp only [hpc, Bool.false_eq_true, if_false]
      rw [hupddef, renderChunk]
  rw [List.map_congr_left hren]
  exact chunksFrom_slice_flatten hash chunkSize hcs A 0 A (List.drop_zero A).symm

/-- Claim C1: for any two file contents `A` and `B` chunked at the same
positive chunk size, applying the delta of `A` against `B`'s signature with
`A` as the source reproduces `A` byte for byte; this holds for every chunk
checksum function. -/
theorem delta_roundtrip (hash : List Nat → String) (chunkSize : Nat)
    (hcs : 0 < chunkSize) (A B : List Nat) :
    apply_delta (create_delta hash chunkSize A (create_signature hash chunkSize B)) A
      = A :=
  apply_create_delta_eq hash chunkSize (Nat.pos_iff_ne_zero.mp hcs) A
    (create_signature hash chunkSize B)

/-- Claim C1 witness: a concrete round trip at chunk size 2. -/
theorem delta_roundtrip_witness :
    0 < 2 ∧
    apply_delta
      (create_delta hashSum 2 [1, 2, 3, 4, 5] (create_signature hashSum 2 [1, 2, 9]))
      [1, 2, 3, 4, 5] = [1, 2, 3, 4, 5] :=
  ⟨by decide, delta_roundtrip hashSum 2 (by decide) [1, 2, 3, 4, 5] [1, 2, 9]⟩

/-- Claim C4 counterexample: for the empty (zero-byte) file — an existing,
readable file — the self-delta's changed-chunk list is empty but its
compression ratio is 1, not 0, because the source returns ratio 1 whenever
the total size is zero. -/
theorem delta_self_empty_cex :
    (create_delta hashSum 8192 [] (create_signature hashSum 8192 [])).changed_chunks
      = [] ∧
    (create_delta hashSum 8192 [] (create_signature hashSum 8192 [])).compression_ratio
      ≠ 0 := by
  have hsig : create_signature hashSum 8192 ([] : List Nat) = [] := by
    rw [create_signature, chunksFrom, dif_pos (Or.inr rfl)]
  constructor
  · rw [create_delta]
    simp [hsig]
  · rw [create_delta]
    simp [hsig]

/-- Claim C4 amended: the self-delta of a file has no changed chunks, for any
chunk size and any content; its compression ratio is 0 whenever the file is
non-empty and the chunk size positive (for an empty file the source yields
ratio 1, the guard value for total size zero). -/
theorem delta_self_spec (hash : List Nat → String) (chunkSize : Nat)
    (hcs : 0 < chunkSize) (A : List Nat) (hA : A ≠ []) :
    (create_delta hash chunkSize A (create_signature hash chunkSize A)).changed_chunks
      = [] ∧
    (create_delta hash chunkSize A (create_signature hash chunkSize A)).compression_ratio
      = 0 := by
  have hfilter : (create_signature hash chunkSize A).filter
      (fun c => !(((create_signature hash chunkSize A).map
        (fun c => c.checksum)).contains c.checksum)) = [] := by
    rw [List.filter_eq_nil_iff]
    intro c hc
    have hmem : c.checksum ∈ (create_signature hash chunkSize A).map
        (fun c => c.checksum) := List.mem_map_of_mem (fun c => c.checksum) hc
    simp [hmem]
  have htot : 0 < ((create_signature hash chunkSize A).map (fun c => c.size)).sum := by
    rw [create_signature, chunksFrom,
      dif_neg (by push_neg; exact ⟨Nat.pos_iff_ne_zero.mp hcs, hA⟩)]
    have hlen : 0 < (A.take chunkSize).length := by
      rw [List.length_take]
      exact lt_min hcs (List.length_pos.mpr hA)
    simp only [List.map_cons, List.sum_cons]
    omega
  constructor
  · rw [create_delta]
    simp only [hfilter, List.map_nil]
  · rw [create_delta]
    simp only [hfilter, List.map_nil, List.sum_nil, if_pos htot, Nat.cast_zero,
      zero_div]

/-- Claim C4 amended witness: a concrete non-empty file at chunk size 2. -/
theorem delta_self_spec_witness :
    (create_delta hashSum 2 [7, 8, 9] (create_signature hashSum 2 [7, 8, 9])).changed_chunks
      = [] ∧
    (create_delta hashSum 2 [7, 8, 9] (create_signature hashSum 2 [7, 8, 9])).compression_ratio
      = 0 :=
  delta_self_spec hashSum 2 (by decide) [7, 8, 9] (by decide)

end Syncer
